import Mathlib

/-!
Shallow embedding of the KernelSight telemetry tracers
(src/src/telemetry/ebpf/{io_latency_tracer,syscall_tracer,sched_tracer}),
together with proofs of the spec claims about them.

Modelling conventions:
* BPF hash maps are total functions into `Option`; `bpf_map_update_elem`
  with `BPF_ANY` is pointwise overwrite, `bpf_map_delete_elem` is pointwise
  erasure, `bpf_map_lookup_elem` is application.
* Machine counters (`__u32`/`__u64` fields incremented by events) are
  modelled as `ℕ`.  The one place where C integer conversion truncates a
  value — the 32-bit product `nr_sector * 512` fed into the 64-bit byte
  counter in `trace_block_rq_complete` — is modelled with an explicit
  `% 2 ^ 32`.
* `double` arithmetic in the userspace consumer (`calculate_percentile`,
  `get_max_latency`, `print_stats`) is modelled over `ℚ`; all values the
  code manipulates there (slot midpoints, `total * p / 100`) are exactly
  representable.  The C cast `(unsigned long long)(...)` of the nonnegative
  target is `Int.toNat ∘ Int.floor`.
* Timestamps are `ℕ` nanoseconds from a monotonic clock; `__u64`
  subtraction `end - start` is `ℕ` truncated subtraction, which agrees with
  the machine subtraction whenever `start ≤ end`.
* The ring buffer ("transport channel") is modelled as a list of emitted
  records; a successful `bpf_ringbuf_reserve`/`submit` appends one record.
-/

/-! ## Histogram and percentile engine (io_latency_tracer.bpf.c / io_latency_tracer.c) -/

def MAX_SLOTS : ℕ := 32

/-- The manual-bit-scan body of `log2` in io_latency_tracer.bpf.c: one
unrolled iteration with loop index `i`, acting on the pair
`(slot, temp)`. -/
def log2step (p : ℕ × ℕ) (i : ℕ) : ℕ × ℕ :=
  let shift := 2 ^ i
  if 2 ^ shift ≤ p.2 then (p.1 + shift, p.2 / 2 ^ shift) else p

/-- `log2` from io_latency_tracer.bpf.c: floor of the base-2 logarithm via
an unrolled bit scan (`i = 5, 4, 3, 2, 1, 0`), clamped to `MAX_SLOTS - 1`;
`v = 0` returns 0. -/
def log2 (v : ℕ) : ℕ :=
  if v = 0 then 0
  else
    let r := [5, 4, 3, 2, 1, 0].foldl log2step (0, v)
    if MAX_SLOTS ≤ r.1 then MAX_SLOTS - 1 else r.1

/-- Midpoint of histogram bucket `i` in `calculate_percentile`:
`(bucket_start + bucket_end) / 2.0` where `bucket_start` is 0 for slot 0
and `2^i` otherwise, and `bucket_end = 2^(i+1)`. -/
def bucketMid (i : ℕ) : ℚ :=
  ((if i = 0 then 0 else (2 : ℚ) ^ i) + (2 : ℚ) ^ (i + 1)) / 2

/-- The `for (i = 0; i < MAX_SLOTS; i++)` walk of `calculate_percentile`:
`fuel` counts the remaining iterations (initially `MAX_SLOTS`, with `i`
starting at 0); when the loop runs out the C function falls through to
`return (1ULL << MAX_SLOTS) / 2.0`. -/
def pctWalk (h : ℕ → ℕ) (target : ℕ) : ℕ → ℕ → ℕ → ℚ
  | 0, _, _ => (2 : ℚ) ^ 32 / 2
  | fuel + 1, cum, i =>
    let cum2 := cum + h i
    if target ≤ cum2 then bucketMid i else pctWalk h target fuel cum2 (i + 1)

/-- `calculate_percentile` from io_latency_tracer.c. -/
def calculate_percentile (h : ℕ → ℕ) (total : ℕ) (percentile : ℚ) : ℚ :=
  if total = 0 then 0
  else pctWalk h (⌊(total : ℚ) * percentile / 100⌋.toNat) 32 0 0

/-- The `for (i = MAX_SLOTS - 1; i >= 0; i--)` scan of `get_max_latency`:
`maxScan h (i + 1)` inspects slot `i` first. -/
def maxScan (h : ℕ → ℕ) : ℕ → ℚ
  | 0 => 0
  | i + 1 => if 0 < h i then (2 : ℚ) ^ (i + 1) else maxScan h i

/-- `get_max_latency` from io_latency_tracer.c: upper bound of the highest
non-empty bucket, 0 for an empty histogram. -/
def get_max_latency (h : ℕ → ℕ) : ℚ := maxScan h MAX_SLOTS

/-- `struct io_stats` (shared by io_latency_tracer.bpf.c and the userspace
loader): two 32-slot histograms plus operation/byte counters.  The fixed
arrays are modelled as functions on slot indices; all reads and writes stay
below `MAX_SLOTS`. -/
@[ext]
structure io_stats where
  read_hist : ℕ → ℕ
  write_hist : ℕ → ℕ
  read_count : ℕ
  write_count : ℕ
  read_bytes : ℕ
  write_bytes : ℕ

def zero_stats : io_stats :=
  { read_hist := fun _ => 0, write_hist := fun _ => 0,
    read_count := 0, write_count := 0, read_bytes := 0, write_bytes := 0 }

/-- One iteration of the per-CPU merge loop in `merge_stats`: element-wise
addition of every counter of one shard into the accumulator. -/
def add_stats (a b : io_stats) : io_stats :=
  { read_hist := fun i => a.read_hist i + b.read_hist i,
    write_hist := fun i => a.write_hist i + b.write_hist i,
    read_count := a.read_count + b.read_count,
    write_count := a.write_count + b.write_count,
    read_bytes := a.read_bytes + b.read_bytes,
    write_bytes := a.write_bytes + b.write_bytes }

/-- `merge_stats` from io_latency_tracer.c: zero the accumulator
(`memset`) and fold every per-CPU shard into it. -/
def merge_stats (shards : List io_stats) : io_stats :=
  shards.foldl add_stats zero_stats

/-- `clear_stats` from io_latency_tracer.c: overwrite every per-CPU shard
with a zeroed value. -/
def clear_stats (shards : List io_stats) : List io_stats :=
  shards.map (fun _ => zero_stats)

/-- The JSONL record produced by `print_stats` in io_latency_tracer.c. -/
structure io_summary where
  timestamp : ℕ
  read_count : ℕ
  read_bytes : ℕ
  read_p50 : ℚ
  read_p95 : ℚ
  read_p99 : ℚ
  read_max : ℚ
  write_count : ℕ
  write_bytes : ℕ
  write_p50 : ℚ
  write_p95 : ℚ
  write_p99 : ℚ
  write_max : ℚ

/-- `print_stats` from io_latency_tracer.c: percentiles and max are
computed only when the corresponding operation count is positive and stay
0 otherwise. -/
def print_stats (stats : io_stats) (timestamp : ℕ) : io_summary :=
  { timestamp := timestamp,
    read_count := stats.read_count,
    read_bytes := stats.read_bytes,
    read_p50 := if 0 < stats.read_count then
      calculate_percentile stats.read_hist stats.read_count 50 else 0,
    read_p95 := if 0 < stats.read_count then
      calculate_percentile stats.read_hist stats.read_count 95 else 0,
    read_p99 := if 0 < stats.read_count then
      calculate_percentile stats.read_hist stats.read_count 99 else 0,
    read_max := if 0 < stats.read_count then get_max_latency stats.read_hist else 0,
    write_count := stats.write_count,
    write_bytes := stats.write_bytes,
    write_p50 := if 0 < stats.write_count then
      calculate_percentile stats.write_hist stats.write_count 50 else 0,
    write_p95 := if 0 < stats.write_count then
      calculate_percentile stats.write_hist stats.write_count 95 else 0,
    write_p99 := if 0 < stats.write_count then
      calculate_percentile stats.write_hist stats.write_count 99 else 0,
    write_max := if 0 < stats.write_count then get_max_latency stats.write_hist else 0 }

/-- One iteration of the 1-second consumer loop in `main` of
io_latency_tracer.c: merge all per-CPU shards, print a summary only if the
merged stats show any activity, then clear all shards. -/
def loop_iteration (shards : List io_stats) (timestamp : ℕ) :
    Option io_summary × List io_stats :=
  let merged := merge_stats shards
  (if 0 < merged.read_count ∨ 0 < merged.write_count
     then some (print_stats merged timestamp) else none,
   clear_stats shards)

/-! ## High-latency syscall tracer (syscall_tracer.bpf.c) -/

/-- `struct syscall_entry_data`: entry timestamp plus first argument. -/
structure syscall_entry_data where
  timestamp : ℕ
  arg0 : ℕ
deriving DecidableEq

/-- `trace_syscall_enter`: store entry data for the thread, overwriting any
prior record (`BPF_ANY`).  This is the correlation tracker's entry
operation. -/
def trace_syscall_enter (m : ℕ → Option syscall_entry_data) (tid now arg0 : ℕ) :
    ℕ → Option syscall_entry_data :=
  fun k => if k = tid then some ⟨now, arg0⟩ else m k

/-- The lookup-and-remove step shared by every path of
`trace_syscall_exit` (the spec's `onExit`): find the entry record for the
thread; if absent do nothing, otherwise delete it and yield it together
with the latency `end_ts - entry.timestamp`. -/
def syscall_onExit (m : ℕ → Option syscall_entry_data) (tid end_ts : ℕ) :
    Option (syscall_entry_data × ℕ) × (ℕ → Option syscall_entry_data) :=
  match m tid with
  | none => (none, m)
  | some e => (some (e, end_ts - e.timestamp), fun k => if k = tid then none else m k)

/-- `struct syscall_event` sent to userspace. -/
structure syscall_event where
  timestamp : ℕ
  pid : ℕ
  tid : ℕ
  syscall_nr : ℕ
  latency_ns : ℕ
  ret_value : ℤ
  arg0 : ℕ
  cpu : ℕ
  uid : ℕ
  is_error : Bool
  comm : String
deriving DecidableEq

def LATENCY_THRESHOLD_NS : ℕ := 10000000

/-- `trace_syscall_exit`: correlate with the stored entry; delete the entry
record on every path; emit an event only when the latency reaches the
10 ms threshold, carrying the entry's `arg0` and `is_error = (ret < 0)`. -/
def trace_syscall_exit (m : ℕ → Option syscall_entry_data) (tid pid end_ts : ℕ)
    (ret : ℤ) (nr cpu uid : ℕ) (comm : String) :
    (ℕ → Option syscall_entry_data) × Option syscall_event :=
  match syscall_onExit m tid end_ts with
  | (none, m2) => (m2, none)
  | (some (e, latency), m2) =>
    if latency < LATENCY_THRESHOLD_NS then (m2, none)
    else (m2, some ⟨end_ts, pid, tid, nr, latency, ret, e.arg0, cpu, uid,
                    if ret < 0 then true else false, comm⟩)

/-! ## Block I/O completion (io_latency_tracer.bpf.c) -/

/-- `trace_block_rq_issue`: record the issue timestamp under the
`(dev, sector)` composite key, overwriting any prior record. -/
def trace_block_rq_issue (iomap : ℕ × ℕ → Option ℕ) (dev sector now : ℕ) :
    ℕ × ℕ → Option ℕ :=
  fun k => if k = (dev, sector) then some now else iomap k

/-- `slots[slot] += 1` on a histogram. -/
def hist_add (h : ℕ → ℕ) (slot : ℕ) : ℕ → ℕ :=
  fun i => if i = slot then h i + 1 else h i

/-- `trace_block_rq_complete`: look up the start record (bail out if
absent), classify the latency in microseconds, decide the direction from
the first `rwbs` character (`'R'` means read, anything else is a write),
bump that direction's histogram slot, count and byte total, and delete the
start record.  `nr_sector * 512` is a 32-bit product in C, hence the
explicit truncation. -/
def trace_block_rq_complete (iomap : ℕ × ℕ → Option ℕ) (stats : io_stats)
    (dev sector nr_sector : ℕ) (rwbs0 : Char) (now : ℕ) :
    (ℕ × ℕ → Option ℕ) × io_stats :=
  match iomap (dev, sector) with
  | none => (iomap, stats)
  | some start_ts =>
    let latency_us := (now - start_ts) / 1000
    let slot := log2 latency_us
    let bytes := nr_sector * 512 % 2 ^ 32
    let erased : ℕ × ℕ → Option ℕ := fun k => if k = (dev, sector) then none else iomap k
    if rwbs0 = 'R' then
      (erased,
        { stats with
            read_hist := hist_add stats.read_hist slot,
            read_count := stats.read_count + 1,
            read_bytes := stats.read_bytes + bytes })
    else
      (erased,
        { stats with
            write_hist := hist_add stats.write_hist slot,
            write_count := stats.write_count + 1,
            write_bytes := stats.write_bytes + bytes })

/-! ## Scheduler tracer (sched_tracer.bpf.c) -/

def NSEC_PER_SEC : ℕ := 1000000000

/-- `struct bucket_stats`: per-process, per-1-second-window counters. -/
structure bucket_stats where
  time_bucket : ℕ
  pid : ℕ
  comm : String
  context_switches : ℕ
  voluntary_switches : ℕ
  involuntary_switches : ℕ
  wakeups : ℕ
  cpu_time_ns : ℕ
  total_timeslice_ns : ℕ
  timeslice_count : ℕ
deriving DecidableEq

/-- `struct process_state`: last switch-in timestamp, last seen window
(0 doubles as "unset"), and the display name. -/
structure process_state where
  last_switch_ts : ℕ
  last_bucket : ℕ
  comm : String
deriving DecidableEq

/-- The mutable state of the scheduler tracer: the two BPF hash maps plus
the ring buffer (modelled as the list of successfully emitted records, in
emission order). -/
structure SchedState where
  process_state_map : ℕ → Option process_state
  bucket_aggregates : ℕ × ℕ → Option bucket_stats
  emitted : List bucket_stats

def init_sched : SchedState :=
  { process_state_map := fun _ => none, bucket_aggregates := fun _ => none, emitted := [] }

/-- `emit_bucket_stats`: reserve ring-buffer space, copy every field of the
stats record into it and submit.  A successful submission appends exactly
the stored record. -/
def emit_bucket_stats (stats : bucket_stats) (emitted : List bucket_stats) :
    List bucket_stats :=
  emitted ++ [stats]

/-- The update arm of `update_bucket_stats` (existing bucket): wakeup
events only bump `wakeups`; switch events bump the switch counters, add
`cpu_time` to both time totals and count the timeslice. -/
def bump_stats (cpu_time : ℕ) (is_voluntary is_wakeup : Bool)
    (stats : bucket_stats) : bucket_stats :=
  if is_wakeup then { stats with wakeups := stats.wakeups + 1 }
  else
    { stats with
        context_switches := stats.context_switches + 1,
        voluntary_switches := stats.voluntary_switches + (if is_voluntary then 1 else 0),
        involuntary_switches := stats.involuntary_switches + (if is_voluntary then 0 else 1),
        cpu_time_ns := stats.cpu_time_ns + cpu_time,
        total_timeslice_ns := stats.total_timeslice_ns + cpu_time,
        timeslice_count := stats.timeslice_count + 1 }

/-- The creation arm of `update_bucket_stats` (`new_stats` initializer). -/
def fresh_stats (pid time_bucket cpu_time : ℕ) (is_voluntary is_wakeup : Bool)
    (comm : String) : bucket_stats :=
  { time_bucket := time_bucket, pid := pid, comm := comm,
    context_switches := if is_wakeup then 0 else 1,
    voluntary_switches := if is_wakeup || !is_voluntary then 0 else 1,
    involuntary_switches := if is_wakeup || is_voluntary then 0 else 1,
    wakeups := if is_wakeup then 1 else 0,
    cpu_time_ns := cpu_time,
    total_timeslice_ns := cpu_time,
    timeslice_count := if is_wakeup then 0 else 1 }

/-- `update_bucket_stats`: update the `(pid, time_bucket)` entry in place
when it exists, otherwise create it; all other keys are untouched. -/
def update_bucket_stats (pid time_bucket cpu_time : ℕ)
    (is_voluntary is_wakeup : Bool) (comm : String)
    (agg : ℕ × ℕ → Option bucket_stats) : ℕ × ℕ → Option bucket_stats :=
  fun k =>
    if k = (pid, time_bucket) then
      match agg (pid, time_bucket) with
      | some stats => some (bump_stats cpu_time is_voluntary is_wakeup stats)
      | none => some (fresh_stats pid time_bucket cpu_time is_voluntary is_wakeup comm)
    else agg k

/-- The rollover block of `trace_sched_switch` (lines 176-184): when the
last seen window is set and differs from the current one, emit the old
bucket (if present) and remove it from the aggregate map. -/
def sched_rollover (prev_pid : ℕ) (state : process_state) (time_bucket : ℕ)
    (s : SchedState) : SchedState :=
  if state.last_bucket ≠ 0 ∧ state.last_bucket ≠ time_bucket then
    match s.bucket_aggregates (prev_pid, state.last_bucket) with
    | some old_stats =>
      { s with emitted := emit_bucket_stats old_stats s.emitted,
               bucket_aggregates := fun k =>
                 if k = (prev_pid, state.last_bucket) then none
                 else s.bucket_aggregates k }
    | none => s
  else s

/-- The `prev_pid` block of `trace_sched_switch`: compute the timeslice,
perform the rollover, advance `last_bucket`, and account the switch into
the current window's bucket; a first sighting creates the process state
with `last_switch_ts = 0` and contributes no duration. -/
def sched_prev_path (now prev_pid : ℕ) (is_voluntary : Bool) (prev_comm : String)
    (s : SchedState) : SchedState :=
  let time_bucket := now / NSEC_PER_SEC
  if 0 < prev_pid then
    match s.process_state_map prev_pid with
    | some state =>
      let cpu_time := if 0 < state.last_switch_ts then now - state.last_switch_ts else 0
      let s2 := sched_rollover prev_pid state time_bucket s
      let s3 :=
        { s2 with process_state_map := fun k =>
            if k = prev_pid then some { state with last_bucket := time_bucket }
            else s2.process_state_map k }
      { s3 with
          bucket_aggregates :=
            update_bucket_stats prev_pid time_bucket cpu_time is_voluntary false prev_comm
              s3.bucket_aggregates }
    | none =>
      let s3 :=
        { s with process_state_map := fun k =>
            if k = prev_pid then some ⟨0, time_bucket, prev_comm⟩
            else s.process_state_map k }
      { s3 with
          bucket_aggregates :=
            update_bucket_stats prev_pid time_bucket 0 is_voluntary false prev_comm
              s3.bucket_aggregates }
  else s

/-- The `next_pid` block of `trace_sched_switch`: stamp the switch-in time
for the incoming task, creating its state on first sighting. -/
def sched_next_path (now next_pid : ℕ) (next_comm : String) (s : SchedState) : SchedState :=
  let time_bucket := now / NSEC_PER_SEC
  if 0 < next_pid then
    match s.process_state_map next_pid with
    | some st =>
      { s with process_state_map := fun k =>
          if k = next_pid then some { st with last_switch_ts := now }
          else s.process_state_map k }
    | none =>
      { s with process_state_map := fun k =>
          if k = next_pid then some ⟨now, time_bucket, next_comm⟩
          else s.process_state_map k }
  else s

/-- `trace_sched_switch`: voluntary iff `prev_state != 0`; process the
outgoing task then the incoming task. -/
def trace_sched_switch (now prev_pid prev_state next_pid : ℕ)
    (prev_comm next_comm : String) (s : SchedState) : SchedState :=
  sched_next_path now next_pid next_comm
    (sched_prev_path now prev_pid (prev_state != 0) prev_comm s)

/-- `trace_sched_wakeup`: ignore pid 0, otherwise account a wakeup into the
current window's bucket (no duration, no rollover check). -/
def trace_sched_wakeup (now pid : ℕ) (comm : String) (s : SchedState) : SchedState :=
  if pid = 0 then s
  else
    { s with
        bucket_aggregates :=
          update_bucket_stats pid (now / NSEC_PER_SEC) 0 false true comm
            s.bucket_aggregates }

/-- One observed tracepoint hit of the scheduler tracer. -/
inductive sched_event where
  | sw (now prev_pid prev_state next_pid : ℕ) (prev_comm next_comm : String)
  | wk (now pid : ℕ) (comm : String)
deriving DecidableEq

def sched_event.time : sched_event → ℕ
  | sw now _ _ _ _ _ => now
  | wk now _ _ => now

def sched_step (s : SchedState) (e : sched_event) : SchedState :=
  match e with
  | .sw now prev_pid prev_state next_pid pc nc =>
    trace_sched_switch now prev_pid prev_state next_pid pc nc s
  | .wk now pid comm => trace_sched_wakeup now pid comm s

/-- Run the scheduler tracer over a list of tracepoint hits, oldest
first, from boot state. -/
def run_sched (l : List sched_event) : SchedState :=
  l.foldl sched_step init_sched

/-! ## Auxiliary definitions used by the claims -/

/-- Spec scenario shard: 3 reads in slot 10. -/
def shardA : io_stats :=
  { zero_stats with read_hist := fun i => if i = 10 then 3 else 0, read_count := 3 }

/-- Spec scenario shard: 5 reads in slot 10. -/
def shardB : io_stats :=
  { zero_stats with read_hist := fun i => if i = 10 then 5 else 0, read_count := 5 }

/-- Spec scenario shard: 2 reads in slot 10. -/
def shardC : io_stats :=
  { zero_stats with read_hist := fun i => if i = 10 then 2 else 0, read_count := 2 }

/-- Accounting invariant of one `bucket_stats` value: total switches split
exactly into voluntary and involuntary, timeslices never outnumber
switches, and the two time totals coincide. -/
def stats_ok (b : bucket_stats) : Prop :=
  b.context_switches = b.voluntary_switches + b.involuntary_switches ∧
  b.timeslice_count ≤ b.context_switches ∧
  b.cpu_time_ns = b.total_timeslice_ns

/-- The accounting invariant holds for every stored and every emitted
`bucket_stats` value. -/
def sched_ok (s : SchedState) : Prop :=
  (∀ k b, s.bucket_aggregates k = some b → stats_ok b) ∧
  (∀ b ∈ s.emitted, stats_ok b)

/-- The (entity, window) identity carried inside an emitted record. -/
def emitted_key (b : bucket_stats) : ℕ × ℕ := (b.pid, b.time_bucket)

/-- Inductive invariant of the scheduler tracer relative to an upper bound
`w` on the windows seen so far: last-seen windows are bounded by `w`,
stored stats carry their own key, emitted keys are pairwise distinct, and
every emitted window lies strictly below its entity's last-seen window. -/
def RolloverInv (w : ℕ) (s : SchedState) : Prop :=
  (∀ p st, s.process_state_map p = some st → st.last_bucket ≤ w) ∧
  (∀ p W b, s.bucket_aggregates (p, W) = some b → b.pid = p ∧ b.time_bucket = W) ∧
  List.Pairwise (fun a b => emitted_key a ≠ emitted_key b) s.emitted ∧
  (∀ b ∈ s.emitted, ∃ st, s.process_state_map b.pid = some st ∧ b.time_bucket < st.last_bucket)

/-! ## Claim C1: correlation round trip -/

/-- Claim C1: after `trace_syscall_enter` stores a start record for key
`k` (overwriting any prior record), a following exit lookup finds and
removes exactly that record and yields the stored metadata together with
the latency `t1 - t0` (which is the exact difference, hence nonnegative,
whenever `t0 ≤ t1`); a second exit lookup without an intervening entry
finds nothing, yields nothing, and leaves the map unchanged. -/
theorem correlation_round_trip (m : ℕ → Option syscall_entry_data)
    (k t0 arg0 t1 t2 : ℕ) (h01 : t0 ≤ t1) :
    (trace_syscall_enter m k t0 arg0) k = some ⟨t0, arg0⟩ ∧
    (syscall_onExit (trace_syscall_enter m k t0 arg0) k t1).1 =
      some (⟨t0, arg0⟩, t1 - t0) ∧
    (t1 - t0) + t0 = t1 ∧
    (syscall_onExit (trace_syscall_enter m k t0 arg0) k t1).2 k = none ∧
    syscall_onExit ((syscall_onExit (trace_syscall_enter m k t0 arg0) k t1).2) k t2 =
      (none, (syscall_onExit (trace_syscall_enter m k t0 arg0) k t1).2) := by
  refine ⟨?_, ?_, ?_, ?_, ?_⟩
  · simp [trace_syscall_enter]
  · simp [trace_syscall_enter, syscall_onExit]
  · omega
  · simp [trace_syscall_enter, syscall_onExit]
  · simp [trace_syscall_enter, syscall_onExit]

theorem correlation_round_trip_witness :
    (trace_syscall_enter (fun _ => none) 7 100 42) 7 = some ⟨100, 42⟩ ∧
    (syscall_onExit (trace_syscall_enter (fun _ => none) 7 100 42) 7 250).1 =
      some (⟨100, 42⟩, 250 - 100) ∧
    (250 - 100) + 100 = 250 ∧
    (syscall_onExit (trace_syscall_enter (fun _ => none) 7 100 42) 7 250).2 7 = none ∧
    syscall_onExit ((syscall_onExit (trace_syscall_enter (fun _ => none) 7 100 42) 7 250).2) 7 300 =
      (none, (syscall_onExit (trace_syscall_enter (fun _ => none) 7 100 42) 7 250).2) :=
  correlation_round_trip (fun _ => none) 7 100 42 250 300 (by decide)

/-! ## Claim C6: syscall exit threshold filtering -/

/-- Claim C6: when the entry record is present, the exit handler deletes
it on every path; below the 10 ms threshold nothing is emitted, while
strictly above the threshold exactly one event is emitted carrying the
stored first argument, the measured latency, and `is_error` true iff the
return value is negative. -/
theorem syscall_exit_threshold (m : ℕ → Option syscall_entry_data)
    (tid pid end_ts : ℕ) (ret : ℤ) (nr cpu uid : ℕ) (comm : String)
    (e : syscall_entry_data) (hm : m tid = some e) :
    (trace_syscall_exit m tid pid end_ts ret nr cpu uid comm).1 tid = none ∧
    (end_ts - e.timestamp < LATENCY_THRESHOLD_NS →
      (trace_syscall_exit m tid pid end_ts ret nr cpu uid comm).2 = none) ∧
    (LATENCY_THRESHOLD_NS < end_ts - e.timestamp →
      (trace_syscall_exit m tid pid end_ts ret nr cpu uid comm).2 =
        some ⟨end_ts, pid, tid, nr, end_ts - e.timestamp, ret, e.arg0, cpu, uid,
              if ret < 0 then true else false, comm⟩) := by
  by_cases hlt : end_ts - e.timestamp < LATENCY_THRESHOLD_NS
  · refine ⟨?_, fun _ => ?_, fun hgt => ?_⟩
    · simp [trace_syscall_exit, syscall_onExit, hm, hlt]
    · simp [trace_syscall_exit, syscall_onExit, hm, hlt]
    · omega
  · refine ⟨?_, fun h => ?_, fun _ => ?_⟩
    · simp [trace_syscall_exit, syscall_onExit, hm, hlt]
    · omega
    · simp [trace_syscall_exit, syscall_onExit, hm, hlt]

theorem syscall_exit_threshold_witness :
    (trace_syscall_exit (fun k => if k = 7 then some ⟨100, 42⟩ else none)
        7 3 11000100 (-1) 0 1 2 "x").1 7 = none ∧
    (11000100 - (100 : ℕ) < LATENCY_THRESHOLD_NS →
      (trace_syscall_exit (fun k => if k = 7 then some ⟨100, 42⟩ else none)
          7 3 11000100 (-1) 0 1 2 "x").2 = none) ∧
    (LATENCY_THRESHOLD_NS < 11000100 - (100 : ℕ) →
      (trace_syscall_exit (fun k => if k = 7 then some ⟨100, 42⟩ else none)
          7 3 11000100 (-1) 0 1 2 "x").2 =
        some ⟨11000100, 3, 7, 0, 11000100 - (100 : ℕ), -1, 42, 1, 2,
              if (-1 : ℤ) < 0 then true else false, "x"⟩) :=
  syscall_exit_threshold (fun k => if k = 7 then some ⟨100, 42⟩ else none)
    7 3 11000100 (-1) 0 1 2 "x" ⟨100, 42⟩ (by decide)

/-! ## Claim C7: consumer flush cycle (corrected) -/

/-- Claim C7 (amended): each 1-second iteration merges all per-CPU shards
and resets every shard to zero, but a summary record is emitted only when
the merged aggregate shows activity; an idle interval emits nothing.  (The
claim as stated — one record on every iteration — fails on idle
intervals, see the counterexample.) -/
theorem consumer_flush_cycle (shards : List io_stats) (ts : ℕ) :
    ((0 < (merge_stats shards).read_count ∨ 0 < (merge_stats shards).write_count) →
      (loop_iteration shards ts).1 = some (print_stats (merge_stats shards) ts)) ∧
    ((merge_stats shards).read_count = 0 ∧ (merge_stats shards).write_count = 0 →
      (loop_iteration shards ts).1 = none) ∧
    (loop_iteration shards ts).2.length = shards.length ∧
    (∀ x ∈ (loop_iteration shards ts).2, x = zero_stats) := by
  refine ⟨fun h => ?_, fun h => ?_, ?_, ?_⟩
  · simp only [loop_iteration, if_pos h]
  · simp only [loop_iteration]
    rw [if_neg (by omega)]
  · simp [loop_iteration, clear_stats]
  · intro x hx
    simp only [loop_iteration, clear_stats, List.mem_map] at hx
    obtain ⟨y, _, rfl⟩ := hx
    rfl

/-- Counterexample to claim C7 as stated: an iteration over idle shards
(all counters zero after the previous reset) emits no summary record at
all, because `main` prints only when `read_count > 0 || write_count > 0`. -/
theorem consumer_flush_cycle_cex : (loop_iteration [zero_stats] 5).1 = none := by
  rfl

theorem consumer_flush_cycle_witness :
    ((0 < (merge_stats [shardA]).read_count ∨ 0 < (merge_stats [shardA]).write_count) →
      (loop_iteration [shardA] 5).1 = some (print_stats (merge_stats [shardA]) 5)) ∧
    ((merge_stats [shardA]).read_count = 0 ∧ (merge_stats [shardA]).write_count = 0 →
      (loop_iteration [shardA] 5).1 = none) ∧
    (loop_iteration [shardA] 5).2.length = [shardA].length ∧
    (∀ x ∈ (loop_iteration [shardA] 5).2, x = zero_stats) :=
  consumer_flush_cycle [shardA] 5

/-! ## Claim C9: block I/O completion direction decision (corrected) -/

/-- Claim C9 (amended): every completed request whose start record is
found is counted in exactly one direction, decided solely by whether the
first `rwbs` character is `'R'`; the chosen direction's histogram slot,
operation count and byte total are bumped while the other direction is
untouched, and the start record is deleted.  The byte total grows by
`nr_sector * 512 % 2 ^ 32` — the product is 32-bit in C, so it truncates
(the claim's plain `nr_sector * 512` fails, see the counterexample). -/
theorem rq_complete_direction (iomap : ℕ × ℕ → Option ℕ) (stats : io_stats)
    (dev sector nr_sector : ℕ) (rwbs0 : Char) (now start_ts : ℕ)
    (hm : iomap (dev, sector) = some start_ts) :
    (trace_block_rq_complete iomap stats dev sector nr_sector rwbs0 now).1 (dev, sector)
        = none ∧
    (rwbs0 = 'R' →
      (trace_block_rq_complete iomap stats dev sector nr_sector rwbs0 now).2 =
        { stats with
            read_hist := hist_add stats.read_hist (log2 ((now - start_ts) / 1000)),
            read_count := stats.read_count + 1,
            read_bytes := stats.read_bytes + nr_sector * 512 % 2 ^ 32 }) ∧
    (rwbs0 ≠ 'R' →
      (trace_block_rq_complete iomap stats dev sector nr_sector rwbs0 now).2 =
        { stats with
            write_hist := hist_add stats.write_hist (log2 ((now - start_ts) / 1000)),
            write_count := stats.write_count + 1,
            write_bytes := stats.write_bytes + nr_sector * 512 % 2 ^ 32 }) := by
  by_cases hr : rwbs0 = 'R'
  · refine ⟨?_, fun _ => ?_, fun h => absurd hr h⟩
    · simp [trace_block_rq_complete, hm, hr]
    · simp [trace_block_rq_complete, hm, hr]
  · refine ⟨?_, fun h => absurd h hr, fun _ => ?_⟩
    · simp [trace_block_rq_complete, hm, hr]
    · simp [trace_block_rq_complete, hm, hr]

/-- Counterexample to claim C9 as stated: a write completion of
`nr_sector = 8388608` sectors (a 4 GiB request, expressible in the 32-bit
`nr_sector` field) adds `8388608 * 512 mod 2^32 = 0` bytes to the write
byte total, not `nr_sector * 512 = 4294967296`. -/
theorem rq_complete_bytes_cex :
    (trace_block_rq_complete (fun k => if k = (1, 2) then some 0 else none) zero_stats
        1 2 8388608 'W' 1500000).2.write_bytes = 0 ∧
    (8388608 * 512 : ℕ) ≠ 0 := by
  exact ⟨by decide, by decide⟩

theorem rq_complete_direction_witness :
    (trace_block_rq_complete (fun k => if k = (1, 2) then some 0 else none) zero_stats
        1 2 8 'R' 1500000).1 (1, 2) = none ∧
    ('R' = 'R' →
      (trace_block_rq_complete (fun k => if k = (1, 2) then some 0 else none) zero_stats
          1 2 8 'R' 1500000).2 =
        { zero_stats with
            read_hist := hist_add zero_stats.read_hist (log2 ((1500000 - 0) / 1000)),
            read_count := zero_stats.read_count + 1,
            read_bytes := zero_stats.read_bytes + 8 * 512 % 2 ^ 32 }) ∧
    ('R' ≠ 'R' →
      (trace_block_rq_complete (fun k => if k = (1, 2) then some 0 else none) zero_stats
          1 2 8 'R' 1500000).2 =
        { zero_stats with
            write_hist := hist_add zero_stats.write_hist (log2 ((1500000 - 0) / 1000)),
            write_count := zero_stats.write_count + 1,
            write_bytes := zero_stats.write_bytes + 8 * 512 % 2 ^ 32 }) :=
  rq_complete_direction (fun k => if k = (1, 2) then some 0 else none) zero_stats
    1 2 8 'R' 1500000 0 (by decide)

/-! ## Percentile walk lemmas (claims C3, C10) -/

/-- The C cast `(unsigned long long)(total * p / 100.0)` is bounded by
`total` whenever `p ≤ 100`. -/
theorem pct_target_le_total (total : ℕ) (p : ℚ) (hp : p ≤ 100) :
    (⌊(total : ℚ) * p / 100⌋).toNat ≤ total := by
  have h1 : (total : ℚ) * p / 100 ≤ total := by
    rw [div_le_iff₀ (by norm_num)]
    have : (total : ℚ) * p ≤ (total : ℚ) * 100 :=
      mul_le_mul_of_nonneg_left hp (by positivity)
    linarith
  have h2 : ⌊(total : ℚ) * p / 100⌋ ≤ (total : ℤ) := by
    calc ⌊(total : ℚ) * p / 100⌋ ≤ ⌊((total : ℕ) : ℚ)⌋ := Int.floor_mono h1
    _ = (total : ℤ) := Int.floor_natCast total
  exact Int.toNat_le.2 h2

/-- If all slots before `i` are empty, the target is at least 1 and slot
`i` alone reaches it, the percentile walk started anywhere at or before
`i` with zero accumulated count stops exactly at slot `i`. -/
theorem pctWalk_skip (h : ℕ → ℕ) (target i : ℕ) (hi : i < 32) (htgt : 1 ≤ target)
    (hhit : target ≤ h i) (hz : ∀ k, k < i → h k = 0) :
    ∀ fuel j, j + fuel = 32 → j ≤ i → pctWalk h target fuel 0 j = bucketMid i := by
  intro fuel
  induction fuel with
  | zero => intro j hj hji; omega
  | succ f ih =>
    intro j hj hji
    rcases eq_or_lt_of_le hji with rfl | hlt
    · have : target ≤ 0 + h j := by omega
      simp only [pctWalk, if_pos this]
    · have hz2 : h j = 0 := hz j hlt
      have hno : ¬ target ≤ 0 + 0 := by omega
      simp only [pctWalk, hz2, if_neg hno]
      exact ih (j + 1) (by omega) (by omega)

/-- If the remaining slots hold enough events to reach the target and at
least one iteration is left, the percentile walk returns some slot
midpoint with index below 32 (it never falls through the loop). -/
theorem pctWalk_total (h : ℕ → ℕ) (target : ℕ) :
    ∀ fuel j cum, j + fuel = 32 → 0 < fuel →
      target ≤ cum + ∑ k in Finset.Ico j 32, h k →
      ∃ m, j ≤ m ∧ m < 32 ∧ pctWalk h target fuel cum j = bucketMid m := by
  intro fuel
  induction fuel with
  | zero => intro j cum _ hf _; omega
  | succ f ih =>
    intro j cum hj _ hsum
    have hj32 : j < 32 := by omega
    by_cases hc : target ≤ cum + h j
    · exact ⟨j, le_refl j, hj32, by simp only [pctWalk, if_pos hc]⟩
    · have hsplit : (∑ k in Finset.Ico j 32, h k) =
          h j + ∑ k in Finset.Ico (j + 1) 32, h k :=
        Finset.sum_eq_sum_Ico_succ_bot hj32 h
      have hf : 0 < f := by
        rcases Nat.eq_zero_or_pos f with rfl | h0
        · exfalso
          have hj31 : j = 31 := by omega
          subst hj31
          have hempty : (∑ k in Finset.Ico 32 32, h k) = 0 := by simp
          rw [hsplit, hempty] at hsum
          omega
        · exact h0
      have hsum2 : target ≤ (cum + h j) + ∑ k in Finset.Ico (j + 1) 32, h k := by
        rw [hsplit] at hsum
        omega
      obtain ⟨m, hm1, hm2, hm3⟩ := ih (j + 1) (cum + h j) (by omega) hf hsum2
      refine ⟨m, by omega, hm2, ?_⟩
      simp only [pctWalk, if_neg hc]
      exact hm3

/-! ## Claim C3: percentile of a single-slot histogram (corrected) -/

/-- Claim C3 (amended): for a histogram whose `N > 0` events all lie in
slot `i < 32` and a percentile `p ≤ 100` whose truncated target
`(unsigned long long)(N * p / 100.0)` is at least 1, `calculate_percentile`
returns the midpoint of slot `i` (with slot 0's lower bound taken as 0).
The extra target condition is forced: when `N * p < 100` the target
truncates to 0 and the walk stops at slot 0 immediately, see the
counterexample. -/
theorem percentile_single_slot (h : ℕ → ℕ) (i N : ℕ) (p : ℚ)
    (hi : i < 32) (hN : 0 < N) (hhist : h i = N)
    (hz : ∀ j, j < 32 → j ≠ i → h j = 0)
    (hp1 : p ≤ 100) (htgt : 1 ≤ (⌊(N : ℚ) * p / 100⌋).toNat) :
    calculate_percentile h N p = bucketMid i := by
  unfold calculate_percentile
  rw [if_neg (by omega)]
  have htN : (⌊(N : ℚ) * p / 100⌋).toNat ≤ N := pct_target_le_total N p hp1
  exact pctWalk_skip h ((⌊(N : ℚ) * p / 100⌋).toNat) i hi htgt
    (by omega) (fun k hk => hz k (by omega) (by omega)) 32 0 rfl (by omega)

/-- Counterexample to claim C3 as stated: one event in slot 10 at
`p = 50` gives target `floor(1 * 50 / 100) = 0`, so the walk stops at
slot 0 with cumulative count 0 and returns slot 0's midpoint 1, not slot
10's midpoint 1536. -/
theorem percentile_single_slot_cex :
    calculate_percentile (fun j => if j = 10 then 1 else 0) 1 50 = 1 ∧
    bucketMid 10 = 1536 ∧ (1 : ℚ) ≠ 1536 := by
  refine ⟨?_, ?_, by norm_num⟩
  · have ht : (⌊((1 : ℕ) : ℚ) * 50 / 100⌋).toNat = 0 := by norm_num
    unfold calculate_percentile
    rw [if_neg (by omega), ht]
    simp only [pctWalk]
    norm_num [bucketMid]
  · norm_num [bucketMid]

theorem percentile_single_slot_witness :
    calculate_percentile (fun j => if j = 10 then 5 else 0) 5 50 = bucketMid 10 :=
  percentile_single_slot (fun j => if j = 10 then 5 else 0) 10 5 50
    (by decide) (by decide) (by decide) (by decide)
    (by norm_num) (by norm_num)

/-! ## Claim C10: the percentile walk always returns from inside the loop -/

/-- Claim C10: whenever `0 < total`, `p ≤ 100` and the slot counters sum
to at least `total`, the walk over the 32 slots reaches its target inside
the loop and returns some slot's midpoint; the fallback value `2^31`
after the loop is unreachable under this precondition. -/
theorem percentile_walk_returns (h : ℕ → ℕ) (total : ℕ) (p : ℚ)
    (htot : 0 < total) (hp : p ≤ 100)
    (hsum : total ≤ ∑ k in Finset.range 32, h k) :
    ∃ m, m < 32 ∧ calculate_percentile h total p = bucketMid m ∧
      calculate_percentile h total p ≠ (2 : ℚ) ^ 32 / 2 := by
  unfold calculate_percentile
  rw [if_neg (by omega)]
  have htN : (⌊(total : ℚ) * p / 100⌋).toNat ≤ total := pct_target_le_total total p hp
  have hsum2 : (⌊(total : ℚ) * p / 100⌋).toNat ≤ 0 + ∑ k in Finset.Ico 0 32, h k := by
    rw [← Finset.range_eq_Ico]
    omega
  obtain ⟨m, _, hm2, hm3⟩ :=
    pctWalk_total h ((⌊(total : ℚ) * p / 100⌋).toNat) 32 0 0 rfl (by omega) hsum2
  refine ⟨m, hm2, hm3, ?_⟩
  rw [hm3]
  unfold bucketMid
  intro hcon
  rcases Nat.eq_zero_or_pos m with rfl | hm0
  · norm_num at hcon
  · rw [if_neg (by omega)] at hcon
    rw [div_eq_div_iff (by norm_num) (by norm_num), pow_succ] at hcon
    have hcon2 : 3 * (2 : ℚ) ^ m = 2 ^ 32 := by linarith
    by_cases hm31 : m = 31
    · subst hm31
      norm_num at hcon2
    · have hm30 : m ≤ 30 := by omega
      have hle : (2 : ℚ) ^ m ≤ 2 ^ 30 := pow_le_pow_right₀ (by norm_num) hm30
      have hbig : (2 : ℚ) ^ 32 ≤ 3 * 2 ^ 30 := by
        rw [← hcon2]
        linarith
      norm_num at hbig

theorem percentile_walk_returns_witness :
    ∃ m, m < 32 ∧ calculate_percentile (fun _ => 1) 5 95 = bucketMid m ∧
      calculate_percentile (fun _ => 1) 5 95 ≠ (2 : ℚ) ^ 32 / 2 :=
  percentile_walk_returns (fun _ => 1) 5 95 (by decide) (by norm_num) (by decide)

/-! ## Claim C2: the log2 bit scan (io_latency_tracer.bpf.c) -/

/-- `Nat.log2` is monotone. -/
theorem nat_log2_mono {a b : ℕ} (h : a ≤ b) : Nat.log2 a ≤ Nat.log2 b := by
  rcases Nat.eq_zero_or_pos a with rfl | ha
  · rw [Nat.log2]
    simp
  · have hb : b ≠ 0 := by omega
    exact (Nat.le_log2 hb).2 (le_trans (Nat.log2_self_le (by omega)) h)

/-- One unrolled `log2` iteration: starting from a positive `temp` below
`2 ^ 2 ^ (i + 1)`, the step with shift `2 ^ i` keeps `temp` positive,
brings it below `2 ^ 2 ^ i`, and preserves `slot + Nat.log2 temp`. -/
theorem log2step_spec (i slot temp : ℕ) (h1 : 1 ≤ temp) (h2 : temp < 2 ^ 2 ^ (i + 1)) :
    1 ≤ (log2step (slot, temp) i).2 ∧
    (log2step (slot, temp) i).2 < 2 ^ 2 ^ i ∧
    (log2step (slot, temp) i).1 + Nat.log2 (log2step (slot, temp) i).2
      = slot + Nat.log2 temp := by
  have hpow : 0 < 2 ^ 2 ^ i := Nat.pos_pow_of_pos _ (by norm_num)
  have hsplit : 2 ^ 2 ^ (i + 1) = 2 ^ 2 ^ i * 2 ^ 2 ^ i := by
    rw [← pow_add]
    congr 1
    rw [pow_succ]
    omega
  by_cases hc : 2 ^ 2 ^ i ≤ temp
  · have ht0 : temp ≠ 0 := by omega
    have hsle : 2 ^ i ≤ Nat.log2 temp := (Nat.le_log2 ht0).2 hc
    have hq1 : 1 ≤ temp / 2 ^ 2 ^ i := (Nat.one_le_div_iff hpow).2 hc
    have hq0 : temp / 2 ^ 2 ^ i ≠ 0 := by omega
    have hqlt : temp / 2 ^ 2 ^ i < 2 ^ 2 ^ i := by
      rw [Nat.div_lt_iff_lt_mul hpow, ← hsplit]
      exact h2
    have hlog : Nat.log2 (temp / 2 ^ 2 ^ i) = Nat.log2 temp - 2 ^ i := by
      apply le_antisymm
      · have hq2 : temp / 2 ^ 2 ^ i < 2 ^ (Nat.log2 temp - 2 ^ i + 1) := by
          rw [Nat.div_lt_iff_lt_mul hpow, ← pow_add]
          have he : Nat.log2 temp - 2 ^ i + 1 + 2 ^ i = Nat.log2 temp + 1 := by omega
          rw [he]
          exact Nat.lt_log2_self
        have := (Nat.log2_lt hq0).2 hq2
        omega
      · apply (Nat.le_log2 hq0).2
        rw [Nat.le_div_iff_mul_le hpow, ← pow_add, Nat.sub_add_cancel hsle]
        exact Nat.log2_self_le ht0
    have hstep : log2step (slot, temp) i = (slot + 2 ^ i, temp / 2 ^ 2 ^ i) := by
      simp only [log2step, if_pos hc]
    rw [hstep]
    refine ⟨hq1, hqlt, ?_⟩
    simp only [hlog]
    omega
  · push_neg at hc
    have hstep : log2step (slot, temp) i = (slot, temp) := by
      simp only [log2step]
      rw [if_neg (by omega)]
    rw [hstep]
    exact ⟨h1, hc, rfl⟩

/-- Folding the unrolled steps with indexes `i, i-1, ..., 0` over a
positive `temp` below `2 ^ 2 ^ (i + 1)` computes `Nat.log2 temp` exactly
and drives `temp` to 1. -/
theorem log2scan_spec : ∀ (i slot temp : ℕ), 1 ≤ temp → temp < 2 ^ 2 ^ (i + 1) →
    (List.range (i + 1)).reverse.foldl log2step (slot, temp)
      = (slot + Nat.log2 temp, 1) := by
  intro i
  induction i with
  | zero =>
    intro slot temp h1 h2
    have hs := log2step_spec 0 slot temp h1 h2
    have hrange : (List.range 1).reverse = [0] := rfl
    rw [hrange]
    show log2step (slot, temp) 0 = (slot + Nat.log2 temp, 1)
    have h21 : (log2step (slot, temp) 0).2 = 1 := by
      have ha := hs.1
      have hb := hs.2.1
      have : (2 : ℕ) ^ 2 ^ 0 = 2 := by norm_num
      omega
    have hlog1 : Nat.log2 1 = 0 := by rw [Nat.log2]; norm_num
    have hfst : (log2step (slot, temp) 0).1 = slot + Nat.log2 temp := by
      have hc := hs.2.2
      rw [h21, hlog1] at hc
      omega
    rw [Prod.ext_iff]
    exact ⟨hfst, h21⟩
  | succ i ih =>
    intro slot temp h1 h2
    have hrev : (List.range (i + 2)).reverse = (i + 1) :: (List.range (i + 1)).reverse := by
      rw [List.range_succ, List.reverse_append]
      rfl
    rw [hrev]
    have hs := log2step_spec (i + 1) slot temp h1 h2
    have hfold := ih (log2step (slot, temp) (i + 1)).1 (log2step (slot, temp) (i + 1)).2
      hs.1 hs.2.1
    rw [Prod.mk.eta] at hfold
    show (List.range (i + 1)).reverse.foldl log2step (log2step (slot, temp) (i + 1))
        = (slot + Nat.log2 temp, 1)
    rw [hfold, hs.2.2]

/-- Claim C2: for every 64-bit latency value, the tracer's `log2` equals
`floor(log2 v)` clamped to `[0, 31]` (with `log2 0 = 0`); consequently it
is monotone and always at most 31, and `log2 1500 = 10`. -/
theorem classify_floor_log2_clamped (v w : ℕ) (hv : v < 2 ^ 64) (hw : w < 2 ^ 64) :
    log2 v = min (Nat.log2 v) 31 ∧
    log2 0 = 0 ∧
    (v ≤ w → log2 v ≤ log2 w) ∧
    log2 v ≤ 31 ∧
    log2 1500 = 10 := by
  have key : ∀ u : ℕ, u < 2 ^ 64 → log2 u = min (Nat.log2 u) 31 := by
    intro u hu
    rcases Nat.eq_zero_or_pos u with rfl | hpos
    · have hz : Nat.log2 0 = 0 := by rw [Nat.log2]; norm_num
      simp [log2, hz]
    · have hulist : [5, 4, 3, 2, 1, 0] = (List.range 6).reverse := by rfl
      have hu2 : u < 2 ^ 2 ^ 6 := by
        have : (2 : ℕ) ^ 2 ^ 6 = 2 ^ 64 := by norm_num
        omega
      have hscan := log2scan_spec 5 0 u hpos hu2
      unfold log2
      rw [if_neg (by omega), hulist, hscan]
      simp only [MAX_SLOTS, Nat.zero_add]
      by_cases h32 : 32 ≤ Nat.log2 u
      · rw [if_pos h32]
        omega
      · rw [if_neg h32]
        omega
  refine ⟨key v hv, ?_, fun hvw => ?_, ?_, ?_⟩
  · simp [log2]
  · rw [key v hv, key w hw]
    have := nat_log2_mono hvw
    omega
  · rw [key v hv]
    omega
  · decide

theorem classify_floor_log2_clamped_witness :
    log2 1500 = min (Nat.log2 1500) 31 ∧
    log2 0 = 0 ∧
    (1500 ≤ 2000 → log2 1500 ≤ log2 2000) ∧
    log2 1500 ≤ 31 ∧
    log2 1500 = 10 :=
  classify_floor_log2_clamped 1500 2000 (by decide) (by decide)

/-! ## Claim C5: shard merging is commutative and associative -/

theorem add_stats_zero (a : io_stats) : add_stats a zero_stats = a := by
  ext i <;> simp [add_stats, zero_stats]

theorem zero_add_stats (a : io_stats) : add_stats zero_stats a = a := by
  ext i <;> simp [add_stats, zero_stats]

theorem add_stats_comm (a b : io_stats) : add_stats a b = add_stats b a := by
  ext i <;> simp [add_stats] <;> omega

theorem add_stats_assoc (a b c : io_stats) :
    add_stats (add_stats a b) c = add_stats a (add_stats b c) := by
  ext i <;> simp [add_stats] <;> omega

theorem foldl_add_stats (l : List io_stats) :
    ∀ s, List.foldl add_stats s l = add_stats s (merge_stats l) := by
  induction l with
  | nil => intro s; simp [merge_stats, add_stats_zero]
  | cons a l ih =>
    intro s
    simp only [List.foldl_cons, merge_stats] at *
    rw [ih (add_stats s a), ih (add_stats zero_stats a), zero_add_stats, add_stats_assoc]

theorem merge_stats_cons (a : io_stats) (l : List io_stats) :
    merge_stats (a :: l) = add_stats a (merge_stats l) := by
  show List.foldl add_stats (add_stats zero_stats a) l = _
  rw [foldl_add_stats, zero_add_stats]

theorem merge_stats_perm {l1 l2 : List io_stats} (h : l1.Perm l2) :
    merge_stats l1 = merge_stats l2 := by
  induction h with
  | nil => rfl
  | cons x _ ih => rw [merge_stats_cons, merge_stats_cons, ih]
  | swap x y l =>
    rw [merge_stats_cons, merge_stats_cons, merge_stats_cons, merge_stats_cons,
      ← add_stats_assoc, add_stats_comm y x, add_stats_assoc]
  | trans _ _ ih1 ih2 => rw [ih1, ih2]

theorem merge_stats_read_hist (l : List io_stats) (i : ℕ) :
    (merge_stats l).read_hist i = (l.map (fun s => s.read_hist i)).sum := by
  induction l with
  | nil => rfl
  | cons a l ih => rw [merge_stats_cons]; simp [add_stats, ih]

theorem merge_stats_write_hist (l : List io_stats) (i : ℕ) :
    (merge_stats l).write_hist i = (l.map (fun s => s.write_hist i)).sum := by
  induction l with
  | nil => rfl
  | cons a l ih => rw [merge_stats_cons]; simp [add_stats, ih]

theorem merge_stats_read_count (l : List io_stats) :
    (merge_stats l).read_count = (l.map io_stats.read_count).sum := by
  induction l with
  | nil => rfl
  | cons a l ih => rw [merge_stats_cons]; simp [add_stats, ih]

theorem merge_stats_write_count (l : List io_stats) :
    (merge_stats l).write_count = (l.map io_stats.write_count).sum := by
  induction l with
  | nil => rfl
  | cons a l ih => rw [merge_stats_cons]; simp [add_stats, ih]

theorem merge_stats_read_bytes (l : List io_stats) :
    (merge_stats l).read_bytes = (l.map io_stats.read_bytes).sum := by
  induction l with
  | nil => rfl
  | cons a l ih => rw [merge_stats_cons]; simp [add_stats, ih]

theorem merge_stats_write_bytes (l : List io_stats) :
    (merge_stats l).write_bytes = (l.map io_stats.write_bytes).sum := by
  induction l with
  | nil => rfl
  | cons a l ih => rw [merge_stats_cons]; simp [add_stats, ih]

/-- Claim C5: merging shards in any order yields identical aggregates
(one shard at a time is commutative and associative, and any permutation
of the shard list merges to the same value); the merge is the element-wise
sum of the 32 histogram slot counters and of each count and byte total;
and the spec scenario holds: shards with read-slot-10 counts 3, 5, 2 merge
to 10, and the 50th percentile of the merged histogram over the merged
total of 10 is 1536 (the midpoint of slot 10). -/
theorem merge_commutative_associative :
    (∀ l1 l2 : List io_stats, l1.Perm l2 → merge_stats l1 = merge_stats l2) ∧
    (∀ a b : io_stats, add_stats a b = add_stats b a) ∧
    (∀ a b c : io_stats, add_stats (add_stats a b) c = add_stats a (add_stats b c)) ∧
    (∀ (l : List io_stats) (i : ℕ),
      (merge_stats l).read_hist i = (l.map (fun s => s.read_hist i)).sum ∧
      (merge_stats l).write_hist i = (l.map (fun s => s.write_hist i)).sum) ∧
    (∀ l : List io_stats,
      (merge_stats l).read_count = (l.map io_stats.read_count).sum ∧
      (merge_stats l).write_count = (l.map io_stats.write_count).sum ∧
      (merge_stats l).read_bytes = (l.map io_stats.read_bytes).sum ∧
      (merge_stats l).write_bytes = (l.map io_stats.write_bytes).sum) ∧
    (merge_stats [shardA, shardB, shardC]).read_hist 10 = 10 ∧
    (merge_stats [shardA, shardB, shardC]).read_count = 10 ∧
    calculate_percentile (merge_stats [shardA, shardB, shardC]).read_hist
      (merge_stats [shardA, shardB, shardC]).read_count 50 = 1536 := by
  refine ⟨fun _ _ h => merge_stats_perm h, add_stats_comm, add_stats_assoc,
    fun l i => ⟨merge_stats_read_hist l i, merge_stats_write_hist l i⟩,
    fun l => ⟨merge_stats_read_count l, merge_stats_write_count l,
      merge_stats_read_bytes l, merge_stats_write_bytes l⟩,
    by decide, by decide, ?_⟩
  have hc : (merge_stats [shardA, shardB, shardC]).read_count = 10 := by decide
  rw [hc]
  have ht : (⌊((10 : ℕ) : ℚ) * 50 / 100⌋).toNat = 5 := by
    norm_num
    rfl
  unfold calculate_percentile
  rw [if_neg (by omega), ht]
  have hw := pctWalk_skip (merge_stats [shardA, shardB, shardC]).read_hist 5 10
    (by norm_num) (by norm_num) (by decide) (by decide) 32 0 rfl (by norm_num)
  rw [hw]
  norm_num [bucketMid]

theorem merge_commutative_associative_witness :
    merge_stats [shardA, shardB] = merge_stats [shardB, shardA] :=
  merge_commutative_associative.1 [shardA, shardB] [shardB, shardA]
    (List.Perm.swap shardB shardA [])

/-! ## Claim C8: bucket stats accounting invariant -/

theorem stats_ok_bump (ct : ℕ) (iv iw : Bool) (s : bucket_stats) (h : stats_ok s) :
    stats_ok (bump_stats ct iv iw s) := by
  obtain ⟨h1, h2, h3⟩ := h
  refine ⟨?_, ?_, ?_⟩ <;> cases iw <;> cases iv <;> simp [bump_stats] <;> omega

theorem stats_ok_fresh (pid tb ct : ℕ) (iv iw : Bool) (comm : String) :
    stats_ok (fresh_stats pid tb ct iv iw comm) := by
  cases iw <;> cases iv <;> simp [fresh_stats, stats_ok]

theorem update_bucket_stats_ok (pid tb ct : ℕ) (iv iw : Bool) (comm : String)
    (agg : ℕ × ℕ → Option bucket_stats)
    (hagg : ∀ k b, agg k = some b → stats_ok b) :
    ∀ k b, update_bucket_stats pid tb ct iv iw comm agg k = some b → stats_ok b := by
  intro k b hk
  unfold update_bucket_stats at hk
  by_cases hkk : k = (pid, tb)
  · rw [if_pos hkk] at hk
    split at hk
    next stats hx =>
      injection hk with hb
      exact hb ▸ stats_ok_bump ct iv iw stats (hagg _ _ hx)
    next hx =>
      injection hk with hb
      exact hb ▸ stats_ok_fresh pid tb ct iv iw comm
  · rw [if_neg hkk] at hk
    exact hagg k b hk

theorem sched_rollover_ok (pp : ℕ) (st : process_state) (tb : ℕ) (s : SchedState)
    (h : sched_ok s) : sched_ok (sched_rollover pp st tb s) := by
  unfold sched_rollover
  split
  · split
    next old hold =>
      refine ⟨?_, ?_⟩
      · intro k b hk
        have hk2 : (if k = (pp, st.last_bucket) then none else s.bucket_aggregates k)
            = some b := hk
        by_cases hkk : k = (pp, st.last_bucket)
        · rw [if_pos hkk] at hk2
          exact absurd hk2 (by simp)
        · rw [if_neg hkk] at hk2
          exact h.1 k b hk2
      · intro b hb
        have hb2 : b ∈ emit_bucket_stats old s.emitted := hb
        rw [emit_bucket_stats, List.mem_append] at hb2
        rcases hb2 with hb2 | hb2
        · exact h.2 b hb2
        · rw [List.mem_singleton] at hb2
          exact hb2 ▸ h.1 (pp, st.last_bucket) old hold
    next hold => exact h
  · exact h

theorem sched_prev_path_ok (now pp : ℕ) (iv : Bool) (pc : String) (s : SchedState)
    (h : sched_ok s) : sched_ok (sched_prev_path now pp iv pc s) := by
  unfold sched_prev_path
  split
  · split
    next state hstate =>
      exact ⟨update_bucket_stats_ok _ _ _ _ _ _ _
          (sched_rollover_ok pp state (now / NSEC_PER_SEC) s h).1,
        (sched_rollover_ok pp state (now / NSEC_PER_SEC) s h).2⟩
    next hstate =>
      exact ⟨update_bucket_stats_ok _ _ _ _ _ _ _ h.1, h.2⟩
  · exact h

theorem sched_next_path_ok (now np : ℕ) (nc : String) (s : SchedState)
    (h : sched_ok s) : sched_ok (sched_next_path now np nc s) := by
  unfold sched_next_path
  split
  · split
    next st hst => exact ⟨h.1, h.2⟩
    next hst => exact ⟨h.1, h.2⟩
  · exact h

theorem trace_sched_wakeup_ok (now pid : ℕ) (comm : String) (s : SchedState)
    (h : sched_ok s) : sched_ok (trace_sched_wakeup now pid comm s) := by
  unfold trace_sched_wakeup
  split
  · exact h
  · exact ⟨update_bucket_stats_ok _ _ _ _ _ _ _ h.1, h.2⟩

theorem sched_step_ok (s : SchedState) (e : sched_event) (h : sched_ok s) :
    sched_ok (sched_step s e) := by
  cases e with
  | sw now pp ps np pc nc =>
    exact sched_next_path_ok _ _ _ _ (sched_prev_path_ok _ _ _ _ _ h)
  | wk now pid comm => exact trace_sched_wakeup_ok _ _ _ _ h

theorem run_sched_ok_aux : ∀ (l : List sched_event) (s : SchedState),
    sched_ok s → sched_ok (l.foldl sched_step s) := by
  intro l
  induction l with
  | nil => intro s h; exact h
  | cons e l ih => intro s h; exact ih _ (sched_step_ok s e h)

/-- Claim C8: every `bucket_stats` value ever stored in the bucket map or
emitted to the ring buffer satisfies the accounting invariant:
`context_switches = voluntary_switches + involuntary_switches`,
`timeslice_count ≤ context_switches`, and
`cpu_time_ns = total_timeslice_ns` (both time totals are advanced by the
same duration on every switch event and wakeups touch neither). -/
theorem bucket_stats_accounting_invariant (l : List sched_event) :
    (∀ k b, (run_sched l).bucket_aggregates k = some b →
      b.context_switches = b.voluntary_switches + b.involuntary_switches ∧
      b.timeslice_count ≤ b.context_switches ∧
      b.cpu_time_ns = b.total_timeslice_ns) ∧
    (∀ b ∈ (run_sched l).emitted,
      b.context_switches = b.voluntary_switches + b.involuntary_switches ∧
      b.timeslice_count ≤ b.context_switches ∧
      b.cpu_time_ns = b.total_timeslice_ns) := by
  have h0 : sched_ok init_sched := by
    refine ⟨fun k b hk => ?_, fun b hb => ?_⟩
    · exact absurd hk (by simp [init_sched])
    · exact absurd hb (by simp [init_sched])
  exact run_sched_ok_aux l init_sched h0

theorem bucket_stats_accounting_invariant_witness :
    (fresh_stats 1 1 0 false true "").context_switches
        = (fresh_stats 1 1 0 false true "").voluntary_switches
          + (fresh_stats 1 1 0 false true "").involuntary_switches ∧
    (fresh_stats 1 1 0 false true "").timeslice_count
        ≤ (fresh_stats 1 1 0 false true "").context_switches ∧
    (fresh_stats 1 1 0 false true "").cpu_time_ns
        = (fresh_stats 1 1 0 false true "").total_timeslice_ns :=
  (bucket_stats_accounting_invariant [.wk 1200000000 1 ""]).1 (1, 1)
    (fresh_stats 1 1 0 false true "") (by decide)

/-! ## Claim C4: rollover emission lemmas -/

theorem bump_stats_fields (ct : ℕ) (iv iw : Bool) (s : bucket_stats) :
    (bump_stats ct iv iw s).pid = s.pid ∧
    (bump_stats ct iv iw s).time_bucket = s.time_bucket := by
  cases iw <;> simp [bump_stats]

theorem update_bucket_stats_fields (pid tb ct : ℕ) (iv iw : Bool) (comm : String)
    (agg : ℕ × ℕ → Option bucket_stats)
    (hagg : ∀ p W b, agg (p, W) = some b → b.pid = p ∧ b.time_bucket = W) :
    ∀ p W b, update_bucket_stats pid tb ct iv iw comm agg (p, W) = some b →
      b.pid = p ∧ b.time_bucket = W := by
  intro p W b hk
  unfold update_bucket_stats at hk
  by_cases hkk : ((p, W) : ℕ × ℕ) = (pid, tb)
  · rw [if_pos hkk] at hk
    injection hkk with hp hW
    subst hp
    subst hW
    split at hk
    next stats hx =>
      injection hk with hb
      obtain ⟨f1, f2⟩ := hagg p W stats hx
      obtain ⟨g1, g2⟩ := bump_stats_fields ct iv iw stats
      rw [← hb]
      exact ⟨g1.trans f1, g2.trans f2⟩
    next hx =>
      injection hk with hb
      rw [← hb]
      cases iw <;> cases iv <;> exact ⟨rfl, rfl⟩
  · rw [if_neg hkk] at hk
    exact hagg p W b hk

theorem rollover_inv_mono {w w2 : ℕ} {s : SchedState} (h : RolloverInv w s)
    (hw : w ≤ w2) : RolloverInv w2 s :=
  ⟨fun p st hp => le_trans (h.1 p st hp) hw, h.2.1, h.2.2.1, h.2.2.2⟩

theorem rollover_inv_wakeup {w : ℕ} {s : SchedState} (h : RolloverInv w s)
    (now pid : ℕ) (comm : String) (hw : w ≤ now / NSEC_PER_SEC) :
    RolloverInv (now / NSEC_PER_SEC) (trace_sched_wakeup now pid comm s) := by
  unfold trace_sched_wakeup
  split
  · exact rollover_inv_mono h hw
  · refine ⟨fun p st hp => le_trans (h.1 p st hp) hw, ?_, h.2.2.1, fun b hb => h.2.2.2 b hb⟩
    intro p W b hk
    exact update_bucket_stats_fields _ _ _ _ _ _ _ h.2.1 p W b hk

theorem sched_next_path_preserves (now np : ℕ) (nc : String) (s : SchedState) :
    (sched_next_path now np nc s).emitted = s.emitted ∧
    (sched_next_path now np nc s).bucket_aggregates = s.bucket_aggregates := by
  unfold sched_next_path
  split
  · split
    next st3 hst3 => exact ⟨rfl, rfl⟩
    next hst3 => exact ⟨rfl, rfl⟩
  · exact ⟨rfl, rfl⟩

theorem sched_next_path_psm (now np : ℕ) (nc : String) (s : SchedState) (p : ℕ)
    (st : process_state) (hp : s.process_state_map p = some st) :
    ∃ st2, (sched_next_path now np nc s).process_state_map p = some st2 ∧
      st2.last_bucket = st.last_bucket := by
  unfold sched_next_path
  split
  · split
    next st3 hst3 =>
      by_cases hpp : p = np
      · refine ⟨{ st3 with last_switch_ts := now }, ?_, ?_⟩
        · show (if p = np then some { st3 with last_switch_ts := now }
              else s.process_state_map p) = _
          rw [if_pos hpp]
        · rw [hpp, hst3] at hp
          injection hp with hx
          rw [← hx]
      · refine ⟨st, ?_, rfl⟩
        show (if p = np then some { st3 with last_switch_ts := now }
            else s.process_state_map p) = some st
        rw [if_neg hpp]
        exact hp
    next hst3 =>
      by_cases hpp : p = np
      · exfalso
        rw [hpp, hst3] at hp
        exact Option.noConfusion hp
      · refine ⟨st, ?_, rfl⟩
        show (if p = np then some (⟨now, now / NSEC_PER_SEC, nc⟩ : process_state)
            else s.process_state_map p) = some st
        rw [if_neg hpp]
        exact hp
  · exact ⟨st, hp, rfl⟩

theorem rollover_inv_next (now np : ℕ) (nc : String) (s : SchedState)
    (h : RolloverInv (now / NSEC_PER_SEC) s) :
    RolloverInv (now / NSEC_PER_SEC) (sched_next_path now np nc s) := by
  obtain ⟨h1, h2, h3, h4⟩ := h
  unfold sched_next_path
  split
  · split
    next st hst =>
      refine ⟨?_, h2, h3, ?_⟩
      · intro p st2 hp
        have hp2 : (if p = np then some { st with last_switch_ts := now }
            else s.process_state_map p) = some st2 := hp
        by_cases hpp : p = np
        · rw [if_pos hpp] at hp2
          injection hp2 with he
          rw [← he]
          exact h1 np st (hpp ▸ hst)
        · rw [if_neg hpp] at hp2
          exact h1 p st2 hp2
      · intro b hb
        obtain ⟨st3, hst3, hlt⟩ := h4 b hb
        by_cases hbp : b.pid = np
        · refine ⟨{ st with last_switch_ts := now }, ?_, ?_⟩
          · show (if b.pid = np then some { st with last_switch_ts := now }
                else s.process_state_map b.pid) = _
            rw [if_pos hbp]
          · have hse : st3 = st := by
              rw [hbp, hst] at hst3
              injection hst3 with hx
              exact hx.symm
            exact hse ▸ hlt
        · refine ⟨st3, ?_, hlt⟩
          show (if b.pid = np then some { st with last_switch_ts := now }
              else s.process_state_map b.pid) = some st3
          rw [if_neg hbp]
          exact hst3
    next hst =>
      refine ⟨?_, h2, h3, ?_⟩
      · intro p st2 hp
        have hp2 : (if p = np then some (⟨now, now / NSEC_PER_SEC, nc⟩ : process_state)
            else s.process_state_map p) = some st2 := hp
        by_cases hpp : p = np
        · rw [if_pos hpp] at hp2
          injection hp2 with he
          rw [← he]
        · rw [if_neg hpp] at hp2
          exact h1 p st2 hp2
      · intro b hb
        obtain ⟨st3, hst3, hlt⟩ := h4 b hb
        by_cases hbp : b.pid = np
        · exfalso
          rw [hbp, hst] at hst3
          exact Option.noConfusion hst3
        · refine ⟨st3, ?_, hlt⟩
          show (if b.pid = np then some (⟨now, now / NSEC_PER_SEC, nc⟩ : process_state)
              else s.process_state_map b.pid) = some st3
          rw [if_neg hbp]
          exact hst3
  · exact ⟨h1, h2, h3, h4⟩

theorem rollover_inv_prev (now pp : ℕ) (iv : Bool) (pc : String) (s : SchedState) (w : ℕ)
    (h : RolloverInv w s) (hw : w ≤ now / NSEC_PER_SEC) :
    RolloverInv (now / NSEC_PER_SEC) (sched_prev_path now pp iv pc s) := by
  obtain ⟨h1, h2, h3, h4⟩ := h
  simp only [sched_prev_path]
  split
  · split
    next state hstate =>
      have hA : (sched_rollover pp state (now / NSEC_PER_SEC) s).process_state_map
          = s.process_state_map := by
        unfold sched_rollover
        split
        · split
          next old hold => rfl
          next hold => rfl
        · rfl
      have hB : ∀ p W b,
          (sched_rollover pp state (now / NSEC_PER_SEC) s).bucket_aggregates (p, W) = some b →
          b.pid = p ∧ b.time_bucket = W := by
        unfold sched_rollover
        split
        · split
          next old hold =>
            intro p W b hk
            have hk2 : (if ((p, W) : ℕ × ℕ) = (pp, state.last_bucket) then none
                else s.bucket_aggregates (p, W)) = some b := hk
            by_cases hkk : ((p, W) : ℕ × ℕ) = (pp, state.last_bucket)
            · rw [if_pos hkk] at hk2
              exact absurd hk2 (by simp)
            · rw [if_neg hkk] at hk2
              exact h2 p W b hk2
          next hold => exact h2
        · exact h2
      have hC : List.Pairwise (fun a b => emitted_key a ≠ emitted_key b)
          (sched_rollover pp state (now / NSEC_PER_SEC) s).emitted := by
        unfold sched_rollover
        split
        case isTrue hcond =>
          split
          next old hold =>
            have hkey : emitted_key old = (pp, state.last_bucket) := by
              obtain ⟨hpid, htb2⟩ := h2 pp state.last_bucket old hold
              simp [emitted_key, hpid, htb2]
            show List.Pairwise _ (emit_bucket_stats old s.emitted)
            rw [emit_bucket_stats, List.pairwise_append]
            refine ⟨h3, List.pairwise_singleton _ _, ?_⟩
            intro a ha b hb
            rw [List.mem_singleton] at hb
            subst hb
            rw [hkey]
            intro hcontra
            obtain ⟨st2, hst2, hlt⟩ := h4 a ha
            have hapid : a.pid = pp := by
              have := congrArg Prod.fst hcontra
              simpa [emitted_key] using this
            have hatb : a.time_bucket = state.last_bucket := by
              have := congrArg Prod.snd hcontra
              simpa [emitted_key] using this
            have hse : st2 = state := by
              rw [hapid, hstate] at hst2
              injection hst2 with hx
              exact hx.symm
            rw [hse, hatb] at hlt
            exact lt_irrefl _ hlt
          next hold => exact h3
        case isFalse => exact h3
      have hD : ∀ b ∈ (sched_rollover pp state (now / NSEC_PER_SEC) s).emitted,
          b ∈ s.emitted ∨
          (b.pid = pp ∧ b.time_bucket = state.last_bucket ∧
            state.last_bucket ≠ now / NSEC_PER_SEC) := by
        unfold sched_rollover
        split
        case isTrue hcond =>
          split
          next old hold =>
            intro b hb
            have hb2 : b ∈ s.emitted ++ [old] := hb
            rw [List.mem_append, List.mem_singleton] at hb2
            rcases hb2 with hb2 | hb2
            · exact Or.inl hb2
            · subst hb2
              obtain ⟨hpid, htb2⟩ := h2 pp state.last_bucket b hold
              exact Or.inr ⟨hpid, htb2, hcond.2⟩
          next hold => exact fun b hb => Or.inl hb
        case isFalse => exact fun b hb => Or.inl hb
      have hsb : state.last_bucket ≤ w := h1 pp state hstate
      refine ⟨?_, ?_, hC, ?_⟩
      · intro p st2 hp
        have hp2 : (if p = pp then some { state with last_bucket := now / NSEC_PER_SEC }
            else (sched_rollover pp state (now / NSEC_PER_SEC) s).process_state_map p)
            = some st2 := hp
        by_cases hppq : p = pp
        · rw [if_pos hppq] at hp2
          injection hp2 with he
          rw [← he]
        · rw [if_neg hppq] at hp2
          rw [hA] at hp2
          exact le_trans (h1 p st2 hp2) hw
      · intro p W b hk
        exact update_bucket_stats_fields pp (now / NSEC_PER_SEC) _ iv false pc _ hB p W b hk
      · intro b hb
        have hb2 : b ∈ (sched_rollover pp state (now / NSEC_PER_SEC) s).emitted := hb
        rcases hD b hb2 with hold2 | ⟨hbpid, hbtb, hne⟩
        · obtain ⟨st2, hst2, hlt⟩ := h4 b hold2
          by_cases hbp : b.pid = pp
          · refine ⟨{ state with last_bucket := now / NSEC_PER_SEC }, ?_, ?_⟩
            · show (if b.pid = pp then some { state with last_bucket := now / NSEC_PER_SEC }
                  else (sched_rollover pp state (now / NSEC_PER_SEC) s).process_state_map b.pid)
                  = _
              rw [if_pos hbp]
            · have hse : st2 = state := by
                rw [hbp, hstate] at hst2
                injection hst2 with hx
                exact hx.symm
              rw [hse] at hlt
              show b.time_bucket < now / NSEC_PER_SEC
              omega
          · refine ⟨st2, ?_, hlt⟩
            show (if b.pid = pp then some { state with last_bucket := now / NSEC_PER_SEC }
                else (sched_rollover pp state (now / NSEC_PER_SEC) s).process_state_map b.pid)
                = some st2
            rw [if_neg hbp, hA]
            exact hst2
        · refine ⟨{ state with last_bucket := now / NSEC_PER_SEC }, ?_, ?_⟩
          · show (if b.pid = pp then some { state with last_bucket := now / NSEC_PER_SEC }
                else (sched_rollover pp state (now / NSEC_PER_SEC) s).process_state_map b.pid)
                = _
            rw [if_pos hbpid]
          · show b.time_bucket < now / NSEC_PER_SEC
            omega
    next hstate =>
      refine ⟨?_, ?_, h3, ?_⟩
      · intro p st2 hp
        have hp2 : (if p = pp then some (⟨0, now / NSEC_PER_SEC, pc⟩ : process_state)
            else s.process_state_map p) = some st2 := hp
        by_cases hppq : p = pp
        · rw [if_pos hppq] at hp2
          injection hp2 with he
          rw [← he]
        · rw [if_neg hppq] at hp2
          exact le_trans (h1 p st2 hp2) hw
      · intro p W b hk
        exact update_bucket_stats_fields pp (now / NSEC_PER_SEC) 0 iv false pc _ h2 p W b hk
      · intro b hb
        have hb2 : b ∈ s.emitted := hb
        obtain ⟨st2, hst2, hlt⟩ := h4 b hb2
        by_cases hbp : b.pid = pp
        · exfalso
          rw [hbp, hstate] at hst2
          exact Option.noConfusion hst2
        · refine ⟨st2, ?_, hlt⟩
          show (if b.pid = pp then some (⟨0, now / NSEC_PER_SEC, pc⟩ : process_state)
              else s.process_state_map b.pid) = some st2
          rw [if_neg hbp]
          exact hst2
  · exact rollover_inv_mono ⟨h1, h2, h3, h4⟩ hw

theorem rollover_inv_step (s : SchedState) (e : sched_event) (w : ℕ)
    (h : RolloverInv w s) (hw : w ≤ e.time / NSEC_PER_SEC) :
    RolloverInv (e.time / NSEC_PER_SEC) (sched_step s e) := by
  cases e with
  | sw now pp ps np pc nc =>
    exact rollover_inv_next now np nc _ (rollover_inv_prev now pp (ps != 0) pc s w h hw)
  | wk now pid comm => exact rollover_inv_wakeup h now pid comm hw

theorem rollover_inv_init : RolloverInv 0 init_sched := by
  refine ⟨fun p st hp => ?_, fun p W b hk => ?_, List.Pairwise.nil, fun b hb => ?_⟩
  · exact absurd hp (by simp [init_sched])
  · exact absurd hk (by simp [init_sched])
  · exact absurd hb (by simp [init_sched])

theorem rollover_inv_run : ∀ (l : List sched_event) (s : SchedState) (w : ℕ),
    RolloverInv w s → (∀ e ∈ l, w ≤ e.time / NSEC_PER_SEC) →
    List.Pairwise (fun a b => sched_event.time a ≤ sched_event.time b) l →
    ∃ w2, RolloverInv w2 (l.foldl sched_step s) := by
  intro l
  induction l with
  | nil => intro s w h _ _; exact ⟨w, h⟩
  | cons e l ih =>
    intro s w h hall hpw
    have he : w ≤ e.time / NSEC_PER_SEC := hall e (List.mem_cons_self e l)
    have hstep := rollover_inv_step s e w h he
    refine ih (sched_step s e) (e.time / NSEC_PER_SEC) hstep ?_ (List.pairwise_cons.1 hpw).2
    intro e2 he2
    exact Nat.div_le_div_right ((List.pairwise_cons.1 hpw).1 e2 he2)

theorem sched_prev_path_emits (now pp : ℕ) (iv : Bool) (pc : String) (s : SchedState)
    (st : process_state) (b : bucket_stats)
    (hpp : 0 < pp)
    (hst : s.process_state_map pp = some st)
    (h0 : st.last_bucket ≠ 0)
    (hne : st.last_bucket ≠ now / NSEC_PER_SEC)
    (hb : s.bucket_aggregates (pp, st.last_bucket) = some b) :
    (sched_prev_path now pp iv pc s).emitted = s.emitted ++ [b] ∧
    (sched_prev_path now pp iv pc s).bucket_aggregates (pp, st.last_bucket) = none ∧
    (sched_prev_path now pp iv pc s).process_state_map pp
      = some { st with last_bucket := now / NSEC_PER_SEC } := by
  have heq : sched_prev_path now pp iv pc s =
      { process_state_map := fun k =>
          if k = pp then some { st with last_bucket := now / NSEC_PER_SEC }
          else (sched_rollover pp st (now / NSEC_PER_SEC) s).process_state_map k,
        bucket_aggregates :=
          update_bucket_stats pp (now / NSEC_PER_SEC)
            (if 0 < st.last_switch_ts then now - st.last_switch_ts else 0) iv false pc
            (sched_rollover pp st (now / NSEC_PER_SEC) s).bucket_aggregates,
        emitted := (sched_rollover pp st (now / NSEC_PER_SEC) s).emitted } := by
    simp only [sched_prev_path]
    rw [if_pos hpp, hst]
  have hroll : sched_rollover pp st (now / NSEC_PER_SEC) s =
      { s with emitted := emit_bucket_stats b s.emitted,
               bucket_aggregates := fun k =>
                 if k = (pp, st.last_bucket) then none else s.bucket_aggregates k } := by
    unfold sched_rollover
    rw [if_pos ⟨h0, hne⟩, hb]
  have hkey : ((pp, st.last_bucket) : ℕ × ℕ) ≠ (pp, now / NSEC_PER_SEC) := by
    intro hcon
    injection hcon with _ hsnd
    exact hne hsnd
  rw [heq, hroll]
  refine ⟨rfl, ?_, ?_⟩
  · simp [update_bucket_stats, hkey]
  · simp

/-- Claim C4 (amended): exactly one record per observed window transition
— when a switch event for an entity arrives in a window different from the
entity's last-seen window, and that last-seen window is nonzero, the
accumulated stats for the old window are emitted exactly once (one record
appended), removed from the bucket map, and the last-seen window advances
to the current window; moreover over any chronologically ordered trace no
(entity, window) pair is ever emitted twice.  The nonzero restriction is
forced: the code uses window index 0 as the "unset" sentinel, so a bucket
accumulated in window 0 is never emitted (see the counterexample). -/
theorem rollover_single_emission :
    (∀ (s : SchedState) (now prev_pid prev_state next_pid : ℕ) (pc nc : String)
       (st : process_state) (b : bucket_stats),
       0 < prev_pid →
       s.process_state_map prev_pid = some st →
       st.last_bucket ≠ 0 →
       st.last_bucket ≠ now / NSEC_PER_SEC →
       s.bucket_aggregates (prev_pid, st.last_bucket) = some b →
       (trace_sched_switch now prev_pid prev_state next_pid pc nc s).emitted
           = s.emitted ++ [b] ∧
       (trace_sched_switch now prev_pid prev_state next_pid pc nc s).bucket_aggregates
           (prev_pid, st.last_bucket) = none ∧
       (∃ st2, (trace_sched_switch now prev_pid prev_state next_pid pc nc s).process_state_map
           prev_pid = some st2 ∧ st2.last_bucket = now / NSEC_PER_SEC)) ∧
    (∀ l : List sched_event,
       List.Pairwise (fun a b => sched_event.time a ≤ sched_event.time b) l →
       List.Pairwise (fun a b => emitted_key a ≠ emitted_key b) (run_sched l).emitted) := by
  constructor
  · intro s now pp ps np pc nc st b hpp hst h0 hne hb
    obtain ⟨hem, haggp, hpsm⟩ :=
      sched_prev_path_emits now pp (ps != 0) pc s st b hpp hst h0 hne hb
    have hpres := sched_next_path_preserves now np nc (sched_prev_path now pp (ps != 0) pc s)
    obtain ⟨st2, hst2, hlb⟩ := sched_next_path_psm now np nc _ pp _ hpsm
    refine ⟨?_, ?_, st2, hst2, hlb⟩
    · show (sched_next_path now np nc (sched_prev_path now pp (ps != 0) pc s)).emitted
          = s.emitted ++ [b]
      rw [hpres.1, hem]
    · show (sched_next_path now np nc (sched_prev_path now pp (ps != 0) pc s)).bucket_aggregates
          (pp, st.last_bucket) = none
      rw [hpres.2]
      exact haggp
  · intro l hl
    obtain ⟨w2, hinv⟩ := rollover_inv_run l init_sched 0 rollover_inv_init
      (fun e _ => Nat.zero_le _) hl
    exact hinv.2.2.1

/-- Counterexample to claim C4 as stated: entity 1 accumulates stats in
window 0 (first switch at t = 0.5 s), and a second switch at t = 1.5 s is
a window transition (0 to 1) as the claim describes, yet nothing is
emitted — `trace_sched_switch` treats `last_bucket == 0` as "unset" and
skips the rollover emission entirely. -/
theorem rollover_single_emission_cex :
    (run_sched [.sw 500000000 1 1 2 "" ""]).bucket_aggregates (1, 0) ≠ none ∧
    (run_sched [.sw 500000000 1 1 2 "" "", .sw 1500000000 1 1 2 "" ""]).emitted = [] := by
  exact ⟨by decide, by decide⟩

theorem rollover_single_emission_witness :
    ((trace_sched_switch 2500000000 1 0 2 "" ""
        (run_sched [.sw 1500000000 1 1 2 "" ""])).emitted
        = (run_sched [.sw 1500000000 1 1 2 "" ""]).emitted
            ++ [fresh_stats 1 1 0 true false ""] ∧
     (trace_sched_switch 2500000000 1 0 2 "" ""
        (run_sched [.sw 1500000000 1 1 2 "" ""])).bucket_aggregates
        (1, (⟨0, 1, ""⟩ : process_state).last_bucket) = none ∧
     (∃ st2, (trace_sched_switch 2500000000 1 0 2 "" ""
        (run_sched [.sw 1500000000 1 1 2 "" ""])).process_state_map 1
          = some st2 ∧ st2.last_bucket = 2500000000 / NSEC_PER_SEC)) ∧
    List.Pairwise (fun a b => emitted_key a ≠ emitted_key b)
      (run_sched [.sw 1500000000 1 1 2 "" "", .sw 2500000000 1 0 2 "" ""]).emitted :=
  ⟨rollover_single_emission.1 (run_sched [.sw 1500000000 1 1 2 "" ""]) 2500000000 1 0 2 "" ""
      ⟨0, 1, ""⟩ (fresh_stats 1 1 0 true false "")
      (by decide) (by decide) (by decide) (by decide) (by decide),
   rollover_single_emission.2 [.sw 1500000000 1 1 2 "" "", .sw 2500000000 1 0 2 "" ""]
      (by decide)⟩
